import Mathlib

/-!
# timingwheel: recurrence policy, timer life cycle and HTTP status helper

A shallow embedding of `every_scheduler.go` and `http_code.go`, together with
the timer state machine that the specification describes, and the properties
that are established about them.

Conventions of the embedding
* A Go pointer `*T` is an `Option T`: `none` is the nil pointer and `some v`
  points to a cell that holds `v`.
* A Go call either returns or panics at run time: `Except GoPanic α`.
* A method with a pointer receiver returns, next to its result, the contents
  of the receiver cell after the call (explicit state passing).
* Machine integers are `Int` with the wrap-around of their width made
  explicit (`wrapInt64`).
* Package `time` of Go's standard library is embedded from its implementation:
  the packed representation of `time.Time`, `Time.Add` with its saturation at
  the ends of the range and its loss of the monotonic reading, and the
  comparisons.  Of package `net/http` only the documented results of
  `http.Head` are used, as a parameter.
-/

namespace Timingwheel

/-! ## Go run-time and standard library -/

/-- Run-time panics that the embedded code can raise. -/
inductive GoPanic where
  | nilDereference
  deriving DecidableEq, Repr

/-- Go's `time.Duration`: a signed count of nanoseconds, an `int64` in Go. -/
abbrev Duration := Int

/-- Go's `time.Second`. -/
def Second : Duration := 1000000000

/-- The smallest `int64`. -/
def minInt64 : Int := -9223372036854775808

/-- The largest `int64`. -/
def maxInt64 : Int := 9223372036854775807

/-- The integer is a value of Go's type `int64`. -/
def IsInt64 (x : Int) : Prop := minInt64 ≤ x ∧ x ≤ maxInt64

instance (x : Int) : Decidable (IsInt64 x) := by unfold IsInt64; infer_instance

/-- The `int64` that a machine operation yields when its exact result is `x`:
the value wraps around modulo `2^64`. -/
def wrapInt64 (x : Int) : Int :=
  (x + 9223372036854775808) % 18446744073709551616 - 9223372036854775808

/-- Go's constant `wallToInternal` of package `time`: the seconds from January
1 of year 1 to January 1 of year 1885. -/
def wallToInternal : Int := 59453308800

/-- Go's `time.Time`, the struct `wall uint64; ext int64; loc *Location`.  The
three bit fields of `wall` are kept as separate fields: `hasMonotonic` is bit
63, `wallSec` the 33 bits of seconds since 1885 (used only with a monotonic
reading), `nsec` the low 30 bits.  `ext` is the monotonic reading in
nanoseconds when `hasMonotonic` is set, and otherwise the seconds since January
1 of year 1.  `loc` identifies the location. -/
structure Time where
  hasMonotonic : Bool
  wallSec : Int
  nsec : Int
  ext : Int
  loc : Nat
  deriving DecidableEq, Repr

/-- The values of the fields that Go's `time.Time` can hold: 33 bits of
seconds, nanoseconds below one second (the invariant that package `time`
keeps), and an `int64`. -/
def Time.Valid (t : Time) : Prop :=
  0 ≤ t.wallSec ∧ t.wallSec ≤ 8589934591 ∧ 0 ≤ t.nsec ∧ t.nsec ≤ 999999999 ∧ IsInt64 t.ext

instance (t : Time) : Decidable t.Valid := by unfold Time.Valid; infer_instance

/-- Go's `(*Time).sec`: the seconds since January 1 of year 1. -/
def Time.sec (t : Time) : Int :=
  if t.hasMonotonic then wallToInternal + t.wallSec else t.ext

/-- Go's `(*Time).stripMono`: `t.ext = t.sec(); t.wall &= nsecMask` when the
time has a monotonic reading. -/
def Time.stripMono (t : Time) : Time :=
  if t.hasMonotonic then { t with ext := t.sec, hasMonotonic := false, wallSec := 0 } else t

/-- Go's `(*Time).addSec`.  With a monotonic reading the seconds are added in
the 33-bit field when the sum fits it; otherwise the reading is stripped.  Then
`sum := t.ext + d` is stored unless it overflowed, in which case `ext`
saturates at `1<<63 - 1` or `-(1<<63 - 1)`.  (`stripMono` does nothing on a time
without a monotonic reading, which is the path that skips the first block.) -/
def Time.addSec (t : Time) (d : Int) : Time :=
  let dsec := wrapInt64 (t.wallSec + d)
  if t.hasMonotonic && decide (0 ≤ dsec) && decide (dsec ≤ 8589934591) then
    { t with wallSec := dsec }
  else
    let u := t.stripMono
    let sum := wrapInt64 (u.ext + d)
    if decide (sum > u.ext) = decide (d > 0) then { u with ext := sum }
    else if d > 0 then { u with ext := maxInt64 }
    else { u with ext := -maxInt64 }

/-- Go's `Time.Add`.  `dsec := int64(d / 1e9)` and `nsec := t.nsec() +
int32(d % 1e9)` use Go's truncated division; the nanoseconds are brought back
into one second with a carry into `dsec`; `addSec` adds the seconds; a
monotonic reading that is still there gets `d` added, and is stripped when that
sum overflows. -/
def Time.Add (t : Time) (d : Duration) : Time :=
  let dsec := Int.tdiv d 1000000000
  let nsec := t.nsec + Int.tmod d 1000000000
  let t1 : Time :=
    if nsec ≥ 1000000000 then ({ t with nsec := nsec - 1000000000 } : Time).addSec (dsec + 1)
    else if nsec < 0 then ({ t with nsec := nsec + 1000000000 } : Time).addSec (dsec - 1)
    else ({ t with nsec := nsec } : Time).addSec dsec
  if t1.hasMonotonic then
    let te := wrapInt64 (t1.ext + d)
    if (d < 0 ∧ te > t1.ext) ∨ (d > 0 ∧ te < t1.ext) then t1.stripMono
    else { t1 with ext := te }
  else t1

/-- Go's `Time.After`: when both times carry a monotonic reading the
comparison uses those readings alone, otherwise seconds and nanoseconds. -/
def Time.After (t u : Time) : Bool :=
  if t.hasMonotonic && u.hasMonotonic then decide (t.ext > u.ext)
  else decide (t.sec > u.sec) || (decide (t.sec = u.sec) && decide (t.nsec > u.nsec))

/-- Go's `Time.Before`, see `Time.After`. -/
def Time.Before (t u : Time) : Bool :=
  if t.hasMonotonic && u.hasMonotonic then decide (t.ext < u.ext)
  else decide (t.sec < u.sec) || (decide (t.sec = u.sec) && decide (t.nsec < u.nsec))

/-- Go's `Time.Equal`: the two times are the same instant (locations are not
compared), see `Time.After`. -/
def Time.Equal (t u : Time) : Bool :=
  if t.hasMonotonic && u.hasMonotonic then decide (t.ext = u.ext)
  else decide (t.sec = u.sec) && decide (t.nsec = u.nsec)

/-- The instant that a time denotes on the wall clock, as an exact count of
nanoseconds since January 1 of year 1. -/
def Time.instant (t : Time) : Int := t.sec * 1000000000 + t.nsec

/-- The instants that `time.Time` can hold: those whose count of whole seconds
since January 1 of year 1 is an `int64`. -/
def Representable (x : Int) : Prop :=
  -9223372036854775808000000000 ≤ x ∧ x ≤ 9223372036854775807999999999

instance (x : Int) : Decidable (Representable x) := by unfold Representable; infer_instance

/-- Go's zero `time.Time`, January 1 of year 1. -/
def timeZero : Time := ⟨false, 0, 0, 0, 0⟩

/-- A time with a monotonic reading, as `time.Now()` returns it. -/
def timeNow : Time := ⟨true, 4450000000, 5, 7, 0⟩

/-- Go's `time.Unix(math.MaxInt64 - 62135596800 - 1, 0)`: one second before the
largest second that `time.Time` holds. -/
def timeNearEnd : Time := ⟨false, 0, 0, 9223372036854775806, 0⟩

/-- Go's `time.Unix(math.MaxInt64 - 62135596800, 0)`: the largest second that
`time.Time` holds. -/
def timeAtEnd : Time := ⟨false, 0, 0, 9223372036854775807, 0⟩

/-! ## every_scheduler.go -/

/-- The struct `EveryScheduler` of every_scheduler.go, lines 5-7. -/
structure EveryScheduler where
  Interval : Duration
  deriving DecidableEq, Repr

/-- The method `func (s *EveryScheduler) Next(prev time.Time) time.Time` of
every_scheduler.go, lines 9-11: `return prev.Add(s.Interval)`.

The receiver is a pointer.  Reading `s.Interval` through the nil pointer is a
run-time panic.  On a non-nil receiver the call returns `prev.Add(s.Interval)`;
the body writes nothing, so the receiver cell holds the same value afterwards. -/
def EveryScheduler.Next (s : Option EveryScheduler) (prev : Time) :
    Except GoPanic (Time × EveryScheduler) :=
  match s with
  | none => .error .nilDereference
  | some v => .ok (prev.Add v.Interval, v)

/-- Calls `Next` on the same non-nil receiver `n` times in succession; every
call is fed the time returned by the call before it, and the receiver cell is
threaded through the calls. -/
def iterNext : Nat → EveryScheduler → Time → Except GoPanic (Time × EveryScheduler)
  | 0, s, t => .ok (t, s)
  | n + 1, s, t =>
    match EveryScheduler.Next (some s) t with
    | .ok (t', s') => iterNext n s' t'
    | .error e => .error e

/-! ## http_code.go -/

/-- Go's `error` values; an error is identified by its message. -/
structure GoError where
  msg : String
  deriving DecidableEq, Repr

/-- Go's `io.ReadCloser` as `GetHttpCode` uses it: only `Close` is called, and
`Close` returns nil or an error. -/
structure ReadCloser where
  Close : Option GoError
  deriving DecidableEq, Repr

/-- Go's `http.Response`, the fields that `GetHttpCode` reads.  Package
`net/http` documents that the `Body` of a response is never nil, so the field
is always present. -/
structure Response where
  StatusCode : Int
  Body : ReadCloser
  deriving DecidableEq, Repr

/-- The result type of `http.Head`: `(*http.Response, error)`; both components
can be nil. -/
abbrev HeadResult := Option Response × Option GoError

/-- The function `GetHttpCode` of http_code.go, lines 7-11.  The network is the
parameter `head`, which stands for `http.Head`.

Line 8 binds `r, err`.  Line 9, `defer r.Body.Close()`, evaluates the receiver
`r.Body` when the defer statement runs, that is before the return statement:
with a nil `r` this is a run-time panic.  Line 10 evaluates the two results;
the deferred `Close` then runs and its own result is dropped. -/
def GetHttpCode (head : String → HeadResult) (u : String) :
    Except GoPanic (Int × Option GoError) :=
  match head u with
  | (none, _) => .error .nilDereference
  | (some r, err) =>
    let results := (r.StatusCode, err)
    let _closed := r.Body.Close
    .ok results

/-- An `http.Head` for which every request fails the way Go's client fails on
a URL without a scheme: no response and an error. -/
def headUnsupportedScheme : String → HeadResult :=
  fun _ => (none, some ⟨"unsupported protocol scheme"⟩)

/-- An `http.Head` that answers every request with status 200. -/
def headOK : String → HeadResult :=
  fun _ => (some ⟨200, ⟨none⟩⟩, none)

/-! ## Timer life cycle (specification, sections 3 and 4.2) -/

/-- Modelled from the spec: the `Scheduler` interface is not among the
sources.  Section 2: "pure function next(prev_time) -> next_time; no side
effects, no shared state"; section 4.1: "the function must always return a
value". -/
abbrev RecurrencePolicy := Time → Time

/-- The recurrence policy that a non-nil `*EveryScheduler` provides through its
method `Next`. -/
def EveryScheduler.policy (s : EveryScheduler) : RecurrencePolicy := fun prev =>
  match EveryScheduler.Next (some s) prev with
  | .ok r => r.1
  | .error _ => prev

/-- Modelled from the spec: the type `Timer` is not among the sources.
Section 3 gives its attributes: `policy`, `callback`, `cancelled` and
`scheduledAt`.  The callback is represented by the number of times it has been
invoked.  `registration` is the entry of the timer in the Wheel Engine ("0-or-1
pending-schedule"), and `firing` says that a dispatched fire has not yet made
its re-arm decision (state Firing of section 4.2). -/
structure Timer where
  policy : RecurrencePolicy
  invocations : Nat
  cancelled : Bool
  scheduledAt : Time
  registration : Option Time
  firing : Bool

/-- Modelled from the spec: the dispatch of the Wheel Engine is not among the
sources.  Section 4.2, Pending → Firing: "Wheel Engine determines
`now >= scheduledAt` on a tick boundary and triggers dispatch"; "the Wheel
Engine must skip dispatch for cancelled entries it later encounters
(lazy-deletion semantics permitted)".  A dispatch takes the entry out of the
wheel and invokes the callback. -/
def Timer.dispatch (t : Timer) (now : Time) : Timer :=
  match t.registration with
  | none => t
  | some due =>
    if t.cancelled then { t with registration := none }
    else if now.Before due then t
    else { t with registration := none, firing := true, invocations := t.invocations + 1 }

/-- Modelled from the spec: the fire routine of the timer is not among the
sources.  Section 4.2, Firing → Pending: "after the callback completes, if
`cancelled` is false, the Timer computes `next = policy.next(scheduledAt)`,
updates `scheduledAt = next`, and re-registers itself with the Wheel Engine";
Firing → Cancelled: "if `cancelled` is true at the re-arm check (read after the
callback completes), the Timer does not re-schedule".  The step is enabled
only while a fire is in flight. -/
def Timer.rearm (t : Timer) : Timer :=
  if t.firing then
    if t.cancelled then { t with firing := false }
    else
      let next := t.policy t.scheduledAt
      { t with scheduledAt := next, registration := some next, firing := false }
  else t

/-- Modelled from the spec: the method `Stop` of the timer handle (the spec's
`cancel()`) is not among the sources.  Section 4.2: "a best-effort
compare-and-swap-style operation"; it returns "`true` if this call transitioned
the Timer out of Pending/off the re-arm path", "`false` if ... it was already
cancelled by a prior call"; Pending → Cancelled: "the Timer's entry is marked
cancelled", the removal from the wheel being lazy (section 6: `remove` may be a
no-op).  A call is one atomic step here, so the answer `false` of a call that
races with a re-arm in progress does not arise in this model. -/
def Timer.cancel (t : Timer) : Bool × Timer :=
  if t.cancelled then (false, t) else (true, { t with cancelled := true })

/-- Modelled from the spec: `n` successive calls of `cancel` on one timer, the
state of each call handed to the next (section 3: "calling it multiple
times"). -/
def Timer.cancelN : Nat → Timer → Timer
  | 0, t => t
  | n + 1, t => Timer.cancelN n t.cancel.2

/-- Modelled from the spec: the steps that act on one timer, which are the
transitions of the state machine of section 4.2: a dispatch by the Wheel Engine
at some tick, the completion of a callback followed by the re-arm check, and a
call of `cancel`. -/
inductive TimerEvent where
  | dispatch (now : Time)
  | callbackDone
  | cancel

/-- Modelled from the spec: one transition of the state machine of section
4.2. -/
def Timer.step (t : Timer) : TimerEvent → Timer
  | .dispatch now => t.dispatch now
  | .callbackDone => t.rearm
  | .cancel => t.cancel.2

/-- Modelled from the spec: the timer after a sequence of transitions, in any
order and of any length. -/
def Timer.run (t : Timer) (evs : List TimerEvent) : Timer :=
  evs.foldl Timer.step t

/-- A timer of the fixed-interval policy of one second whose first fire is in
flight and which has not been cancelled. -/
def timerInFlight : Timer :=
  { policy := EveryScheduler.policy ⟨Second⟩, invocations := 1, cancelled := false,
    scheduledAt := timeZero, registration := none, firing := true }

/-- The timer `timerInFlight` after a `cancel` that arrived during the fire. -/
def timerInFlightCancelled : Timer :=
  { policy := EveryScheduler.policy ⟨Second⟩, invocations := 1, cancelled := true,
    scheduledAt := timeZero, registration := none, firing := true }

/-- A timer that was cancelled while it was pending: the flag is set, no fire
is in flight, and its entry is still in the wheel (lazy removal). -/
def timerCancelled : Timer :=
  { policy := EveryScheduler.policy ⟨Second⟩, invocations := 3, cancelled := true,
    scheduledAt := ⟨false, 0, 0, 3, 0⟩, registration := some ⟨false, 0, 0, 3, 0⟩,
    firing := false }

/-! ## Auxiliary facts -/

theorem tdiv_tmod_spec (d : Int) :
    d = 1000000000 * Int.tdiv d 1000000000 + Int.tmod d 1000000000 ∧
    -1000000000 < Int.tmod d 1000000000 ∧ Int.tmod d 1000000000 < 1000000000 ∧
    (0 ≤ d → 0 ≤ Int.tmod d 1000000000) ∧ (d ≤ 0 → Int.tmod d 1000000000 ≤ 0) := by
  have h1 := Int.tdiv_add_tmod d 1000000000
  have h2 : Int.tmod d 1000000000 < 1000000000 := Int.tmod_lt_of_pos d (by decide)
  have h3 : 0 ≤ d → 0 ≤ Int.tmod d 1000000000 := fun h => Int.tmod_nonneg _ h
  have k1 := Int.tdiv_add_tmod (-d) 1000000000
  have k2 : Int.tmod (-d) 1000000000 < 1000000000 := Int.tmod_lt_of_pos (-d) (by decide)
  have k3 : 0 ≤ -d → 0 ≤ Int.tmod (-d) 1000000000 := fun h => Int.tmod_nonneg _ h
  have k4 : Int.tdiv (-d) 1000000000 = -(Int.tdiv d 1000000000) := Int.neg_tdiv d 1000000000
  rw [k4] at k1
  refine ⟨by omega, ?_, h2, h3, ?_⟩
  · rcases le_total 0 d with h | h
    · have := h3 h; omega
    · have := k3 (by omega); omega
  · intro h
    have := k3 (by omega); omega

theorem Time.addSec_spec (t : Time) (d : Int)
    (hw0 : 0 ≤ t.wallSec) (hw1 : t.wallSec ≤ 8589934591) (he : IsInt64 t.ext)
    (hd0 : -10000000000 ≤ d) (hd1 : d ≤ 10000000000)
    (hs0 : minInt64 ≤ t.sec + d) (hs1 : t.sec + d ≤ maxInt64) :
    (t.addSec d).sec = t.sec + d ∧ (t.addSec d).nsec = t.nsec ∧ (t.addSec d).loc = t.loc ∧
    0 ≤ (t.addSec d).wallSec ∧ (t.addSec d).wallSec ≤ 8589934591 ∧ IsInt64 (t.addSec d).ext ∧
    ((t.addSec d).hasMonotonic = true → t.hasMonotonic = true ∧ (t.addSec d).ext = t.ext) := by
  obtain ⟨m, w, n, e, l⟩ := t
  simp only [IsInt64, minInt64, maxInt64, Time.sec, wallToInternal] at *
  cases m <;>
    simp only [Time.addSec, Time.stripMono, Time.sec, wrapInt64, wallToInternal, minInt64,
      maxInt64, IsInt64] <;>
    split_ifs <;> simp_all <;> omega


theorem Time.instant_representable (t : Time) (hv : t.Valid) : Representable t.instant := by
  obtain ⟨m, w, n, e, l⟩ := t
  simp only [Time.Valid, IsInt64, minInt64, maxInt64] at hv
  cases m <;> simp only [Representable, Time.instant, Time.sec, wallToInternal] <;>
    simp <;> omega

theorem Time.Add_tail (u : Time) (k d I : Int)
    (w0 : 0 ≤ u.wallSec) (w1 : u.wallSec ≤ 8589934591)
    (n0 : 0 ≤ u.nsec) (n1 : u.nsec ≤ 999999999) (he : IsInt64 u.ext) (hd : IsInt64 d)
    (hsum : u.sec * 1000000000 + u.nsec + k * 1000000000 = I) (hI : Representable I)
    (k0 : -10000000000 ≤ k) (k1 : k ≤ 10000000000) :
    ∀ res : Time,
      res = (if (u.addSec k).hasMonotonic then
          (if (d < 0 ∧ wrapInt64 ((u.addSec k).ext + d) > (u.addSec k).ext) ∨
              (d > 0 ∧ wrapInt64 ((u.addSec k).ext + d) < (u.addSec k).ext)
            then (u.addSec k).stripMono
            else { u.addSec k with ext := wrapInt64 ((u.addSec k).ext + d) })
          else u.addSec k) →
      res.Valid ∧ res.instant = I ∧ res.loc = u.loc ∧
        (res.hasMonotonic = true → u.hasMonotonic = true ∧ res.ext = u.ext + d) := by
  simp only [Representable] at hI
  have hs0 : minInt64 ≤ u.sec + k := by simp only [minInt64]; omega
  have hs1 : u.sec + k ≤ maxInt64 := by simp only [maxInt64]; omega
  obtain ⟨a1, a2, a3, a4, a5, a6, a7⟩ := Time.addSec_spec u k w0 w1 he k0 k1 hs0 hs1
  generalize u.addSec k = t1 at a1 a2 a3 a4 a5 a6 a7
  simp only [minInt64, maxInt64] at hs0 hs1
  generalize u.sec = S at hsum hs0 hs1 a1
  obtain ⟨m1, w1', n1', x1, l1⟩ := t1
  simp only [IsInt64, minInt64, maxInt64] at a6 he hd
  simp only at a2 a3 a4 a5 a6 a7
  intro res hres
  cases m1
  · simp only [Bool.false_eq_true, if_false] at hres
    simp only [Time.sec, Bool.false_eq_true, if_false] at a1
    subst hres
    simp only [Time.Valid, Time.instant, Time.sec, IsInt64, minInt64, maxInt64,
      Bool.false_eq_true, if_false, false_implies, and_true]
    refine ⟨⟨a4, a5, by omega, by omega, a6.1, a6.2⟩, by omega, a3⟩
  · obtain ⟨a7m, a7e⟩ := a7 rfl
    simp only [Time.sec, wallToInternal, if_true] at a1
    simp only [if_true] at hres
    by_cases hc : (d < 0 ∧ wrapInt64 (x1 + d) > x1) ∨ (d > 0 ∧ wrapInt64 (x1 + d) < x1)
    · rw [if_pos hc] at hres
      simp only [Time.stripMono, if_true, Time.sec, wallToInternal] at hres
      subst hres
      simp only [Time.Valid, Time.instant, Time.sec, IsInt64, minInt64, maxInt64,
        Bool.false_eq_true, if_false, false_implies, and_true]
      refine ⟨⟨by omega, by omega, by omega, by omega, by omega, by omega⟩, by omega, a3⟩
    · rw [if_neg hc] at hres
      subst hres
      simp only [wrapInt64] at hc ⊢
      simp only [Time.Valid, Time.instant, Time.sec, IsInt64, minInt64, maxInt64,
        wallToInternal, if_true]
      refine ⟨⟨by omega, by omega, by omega, by omega, by omega, by omega⟩, by omega, a3,
        fun _ => ⟨a7m, by omega⟩⟩

theorem Time.Add_spec (t : Time) (d : Duration) (hv : t.Valid) (hd : IsInt64 d)
    (hr : Representable (t.instant + d)) :
    (t.Add d).Valid ∧ (t.Add d).instant = t.instant + d ∧ (t.Add d).loc = t.loc ∧
    ((t.Add d).hasMonotonic = true → t.hasMonotonic = true ∧ (t.Add d).ext = t.ext + d) := by
  obtain ⟨h1, h2, h3, h4, h5⟩ := tdiv_tmod_spec d
  obtain ⟨v1, v2, v3, v4, v5⟩ := hv
  have hd' := hd
  simp only [IsInt64, minInt64, maxInt64] at hd'
  by_cases c1 : t.nsec + Int.tmod d 1000000000 ≥ 1000000000
  · refine Time.Add_tail { t with nsec := t.nsec + Int.tmod d 1000000000 - 1000000000 }
      (Int.tdiv d 1000000000 + 1) d (t.instant + d) v1 v2 ?_ ?_ v5 hd ?_ hr ?_ ?_ (t.Add d) ?_
    · show 0 ≤ t.nsec + Int.tmod d 1000000000 - 1000000000
      omega
    · show t.nsec + Int.tmod d 1000000000 - 1000000000 ≤ 999999999
      omega
    · show t.sec * 1000000000 + (t.nsec + Int.tmod d 1000000000 - 1000000000) +
        (Int.tdiv d 1000000000 + 1) * 1000000000 = t.sec * 1000000000 + t.nsec + d
      omega
    · omega
    · omega
    · simp only [Time.Add, if_pos c1]
  · by_cases c2 : t.nsec + Int.tmod d 1000000000 < 0
    · refine Time.Add_tail { t with nsec := t.nsec + Int.tmod d 1000000000 + 1000000000 }
        (Int.tdiv d 1000000000 - 1) d (t.instant + d) v1 v2 ?_ ?_ v5 hd ?_ hr ?_ ?_ (t.Add d) ?_
      · show 0 ≤ t.nsec + Int.tmod d 1000000000 + 1000000000
        omega
      · show t.nsec + Int.tmod d 1000000000 + 1000000000 ≤ 999999999
        omega
      · show t.sec * 1000000000 + (t.nsec + Int.tmod d 1000000000 + 1000000000) +
          (Int.tdiv d 1000000000 - 1) * 1000000000 = t.sec * 1000000000 + t.nsec + d
        omega
      · omega
      · omega
      · simp only [Time.Add, if_neg c1, if_pos c2]
    · refine Time.Add_tail { t with nsec := t.nsec + Int.tmod d 1000000000 }
        (Int.tdiv d 1000000000) d (t.instant + d) v1 v2 ?_ ?_ v5 hd ?_ hr ?_ ?_ (t.Add d) ?_
      · show 0 ≤ t.nsec + Int.tmod d 1000000000
        omega
      · show t.nsec + Int.tmod d 1000000000 ≤ 999999999
        omega
      · show t.sec * 1000000000 + (t.nsec + Int.tmod d 1000000000) +
          (Int.tdiv d 1000000000) * 1000000000 = t.sec * 1000000000 + t.nsec + d
        omega
      · omega
      · omega
      · simp only [Time.Add, if_neg c1, if_neg c2]

theorem Time.compare_Add (a : Time) (d : Int) (hv : a.Valid) (hd : IsInt64 d)
    (hr : Representable (a.instant + d)) :
    ((a.Add d).After a = true ↔ 0 < d) ∧ ((a.Add d).Equal a = true ↔ d = 0) ∧
    ((a.Add d).Before a = true ↔ d < 0) ∧ (a.Before (a.Add d) = true ↔ 0 < d) := by
  obtain ⟨b1, b2, _, b4⟩ := Time.Add_spec a d hv hd hr
  generalize a.Add d = b at b1 b2 b4
  obtain ⟨_, _, v3, v4, _⟩ := hv
  obtain ⟨_, _, u3, u4, _⟩ := b1
  simp only [Time.instant] at b2
  by_cases hm : b.hasMonotonic = true ∧ a.hasMonotonic = true
  · obtain ⟨_, b5⟩ := b4 hm.1
    simp only [Time.After, Time.Equal, Time.Before, hm.1, hm.2, Bool.and_self, if_true,
      decide_eq_true_eq]
    refine ⟨?_, ?_, ?_, ?_⟩ <;> constructor <;> intro h <;> omega
  · have hm' : (b.hasMonotonic && a.hasMonotonic) = false := by
      simpa using hm
    have hm'' : (a.hasMonotonic && b.hasMonotonic) = false := by
      rw [Bool.and_comm]; exact hm'
    simp only [Time.After, Time.Equal, Time.Before, hm', hm'', Bool.false_eq_true, if_false,
      Bool.or_eq_true, Bool.and_eq_true, decide_eq_true_eq]
    generalize a.sec = sa at b2 ⊢
    generalize b.sec = sb at b2 ⊢
    refine ⟨?_, ?_, ?_, ?_⟩ <;> constructor <;> intro h <;> omega

theorem iterNext_iterate (n : Nat) (s : EveryScheduler) (t : Time) :
    iterNext n s t = .ok ((fun x : Time => x.Add s.Interval)^[n] t, s) := by
  induction n generalizing t with
  | zero => rfl
  | succ k ih =>
    simp only [iterNext, EveryScheduler.Next, Function.iterate_succ_apply]
    exact ih _

theorem representable_between (x d : Int) (n : Nat) (hx : Representable x)
    (hn : Representable (x + ((n + 1 : Nat) : Int) * d)) :
    Representable (x + d) ∧ x + d + (n : Int) * d = x + ((n + 1 : Nat) : Int) * d := by
  have e : ((n + 1 : Nat) : Int) * d = (n : Int) * d + d := by push_cast; ring
  rw [e] at hn ⊢
  have hp : 0 ≤ d → 0 ≤ (n : Int) * d := fun h => mul_nonneg (Int.ofNat_nonneg n) h
  have hq : d ≤ 0 → (n : Int) * d ≤ 0 := fun h =>
    mul_nonpos_of_nonneg_of_nonpos (Int.ofNat_nonneg n) h
  generalize (n : Int) * d = m at hn hp hq ⊢
  simp only [Representable] at *
  omega

theorem Time.iterate_Add_spec (n : Nat) (d : Duration) (hd : IsInt64 d) (t : Time)
    (hv : t.Valid) (hr : Representable (t.instant + (n : Int) * d)) :
    ((fun x : Time => x.Add d)^[n] t).Valid ∧
    ((fun x : Time => x.Add d)^[n] t).instant = t.instant + (n : Int) * d ∧
    ((fun x : Time => x.Add d)^[n] t).loc = t.loc := by
  induction n generalizing t with
  | zero => simpa using hv
  | succ k ih =>
    obtain ⟨r1, r2⟩ := representable_between t.instant d k (Time.instant_representable t hv) hr
    obtain ⟨a1, a2, a3, _⟩ := Time.Add_spec t d hv hd r1
    rw [Function.iterate_succ_apply]
    obtain ⟨i1, i2, i3⟩ := ih (t.Add d) a1 (by rw [a2, r2]; exact hr)
    exact ⟨i1, by rw [i2, a2, r2], by rw [i3, a3]⟩

theorem Time.Add_zero (t : Time) (hv : t.Valid) : t.Add 0 = t := by
  obtain ⟨m, w, n, e, l⟩ := t
  obtain ⟨v1, v2, v3, v4, v5⟩ := hv
  simp only [IsInt64, minInt64, maxInt64] at v1 v2 v3 v4 v5
  have hw : wrapInt64 w = w := by simp only [wrapInt64]; omega
  have he : wrapInt64 e = e := by simp only [wrapInt64]; omega
  have hn : ¬ (1000000000 ≤ n) := by omega
  have hn' : ¬ (n < 0) := by omega
  cases m <;>
    simp [Time.Add, Time.addSec, Time.stripMono, hw, he, v1, v2, v3, v4, hn, hn']

theorem Time.iterate_Add_increasing (d : Int) (hd : IsInt64 d) (hpos : 0 < d) (prev : Time)
    (hv : prev.Valid) (n : Nat)
    (hn : Representable (prev.instant + ((n + 1 : Nat) : Int) * d)) :
    ((fun x : Time => x.Add d)^[n + 1] prev).After ((fun x : Time => x.Add d)^[n] prev) = true ∧
    ((fun x : Time => x.Add d)^[n] prev).Before ((fun x : Time => x.Add d)^[n + 1] prev) =
      true := by
  have h0 := Time.instant_representable prev hv
  obtain ⟨_, r2⟩ := representable_between prev.instant d n h0 hn
  rw [← r2] at hn
  have hp : 0 ≤ (n : Int) * d := mul_nonneg (Int.ofNat_nonneg n) (le_of_lt hpos)
  have hrn : Representable (prev.instant + (n : Int) * d) := by
    generalize (n : Int) * d = m at hp hn ⊢
    simp only [Representable] at *
    omega
  obtain ⟨a1, a2, _⟩ := Time.iterate_Add_spec n d hd prev hv hrn
  have hra : Representable (((fun x : Time => x.Add d)^[n] prev).instant + d) := by
    rw [a2, add_right_comm]
    exact hn
  obtain ⟨k1, _, _, k4⟩ := Time.compare_Add _ d a1 hd hra
  rw [Function.iterate_succ_apply']
  exact ⟨k1.2 hpos, k4.2 hpos⟩

theorem EveryScheduler.policy_eq (s : EveryScheduler) (prev : Time) :
    s.policy prev = prev.Add s.Interval := rfl

theorem Timer.cancelN_of_cancelled (n : Nat) (t : Timer) (h : t.cancelled = true) :
    t.cancelN n = t := by
  induction n with
  | zero => rfl
  | succ k ih => simpa [Timer.cancelN, Timer.cancel, h] using ih

theorem Timer.cancel_of_cancelled (t : Timer) (h : t.cancelled = true) :
    t.cancel = (false, t) := by
  simp [Timer.cancel, h]

theorem Timer.cancel_cancelled (t : Timer) : t.cancel.2.cancelled = true := by
  unfold Timer.cancel
  by_cases h : t.cancelled = true <;> simp [h]

theorem Timer.step_terminal (t : Timer) (e : TimerEvent)
    (hc : t.cancelled = true) (hf : t.firing = false) :
    (t.step e).cancelled = true ∧ (t.step e).firing = false ∧
    (t.step e).scheduledAt = t.scheduledAt ∧ (t.step e).invocations = t.invocations ∧
    ((t.step e).registration = none ∨ (t.step e).registration = t.registration) := by
  cases e with
  | dispatch now =>
    cases hr : t.registration with
    | none => simp [Timer.step, Timer.dispatch, hr, hc, hf]
    | some due => simp [Timer.step, Timer.dispatch, hr, hc, hf]
  | callbackDone => simp [Timer.step, Timer.rearm, hc, hf]
  | cancel => simp [Timer.step, Timer.cancel, hc, hf]

theorem Timer.run_terminal (evs : List TimerEvent) (t : Timer)
    (hc : t.cancelled = true) (hf : t.firing = false) :
    (t.run evs).cancelled = true ∧ (t.run evs).firing = false ∧
    (t.run evs).scheduledAt = t.scheduledAt ∧ (t.run evs).invocations = t.invocations ∧
    ((t.run evs).registration = none ∨ (t.run evs).registration = t.registration) := by
  induction evs generalizing t with
  | nil => simp [Timer.run, hc, hf]
  | cons e rest ih =>
    obtain ⟨h1, h2, h3, h4, h5⟩ := Timer.step_terminal t e hc hf
    obtain ⟨k1, k2, k3, k4, k5⟩ := ih (t.step e) h1 h2
    have hrun : t.run (e :: rest) = (t.step e).run rest := rfl
    rw [hrun]
    refine ⟨k1, k2, k3.trans h3, k4.trans h4, ?_⟩
    rcases k5 with k5 | k5
    · exact Or.inl k5
    · rcases h5 with h5 | h5
      · exact Or.inl (k5.trans h5)
      · exact Or.inr (k5.trans h5)

/-! ## The fixed-interval policy -/

/-- C1, as stated, fails: one second before the largest second that
`time.Time` holds, `Next` with an interval of two seconds returns the instant
`prev` plus one second, because `Time.Add` saturates. -/
theorem EveryScheduler.Next_saturates :
    timeNearEnd.Valid ∧ IsInt64 2000000000 ∧
    EveryScheduler.Next (some ⟨2000000000⟩) timeNearEnd = .ok (timeAtEnd, ⟨2000000000⟩) ∧
    timeAtEnd.instant = timeNearEnd.instant + 1000000000 ∧
    timeAtEnd.instant ≠ timeNearEnd.instant + 2000000000 :=
  ⟨by decide, by decide,
    congrArg (fun t : Time => Except.ok (t, (⟨2000000000⟩ : EveryScheduler)))
      (by decide : timeNearEnd.Add 2000000000 = timeAtEnd),
    by decide, by decide⟩

/-- C1, amended: for every `EveryScheduler` with interval `d` and every time
`prev` such that the instant `prev + d` is one that `time.Time` can hold,
`Next(prev)` returns exactly the instant `prev + d`, in the location of `prev`;
a monotonic reading, where the result carries one, is that of `prev` plus
`d`.  (`hd` and `hv` say that the operands are values of their Go types.) -/
theorem EveryScheduler.Next_eq_add (s : EveryScheduler) (prev : Time)
    (hd : IsInt64 s.Interval) (hv : prev.Valid)
    (hr : Representable (prev.instant + s.Interval)) :
    ∃ t : Time, EveryScheduler.Next (some s) prev = .ok (t, s) ∧
      t.instant = prev.instant + s.Interval ∧
      t.loc = prev.loc ∧
      t.Valid ∧
      (t.hasMonotonic = true →
        prev.hasMonotonic = true ∧ t.ext = prev.ext + s.Interval) := by
  obtain ⟨a1, a2, a3, a4⟩ := Time.Add_spec prev s.Interval hv hd hr
  exact ⟨prev.Add s.Interval, rfl, a2, a3, a1, a4⟩

theorem EveryScheduler.Next_eq_add_witness :
    IsInt64 Second ∧ timeNow.Valid ∧ Representable (timeNow.instant + Second) ∧
    ∃ t : Time, EveryScheduler.Next (some ⟨Second⟩) timeNow = .ok (t, ⟨Second⟩) ∧
      t.instant = timeNow.instant + Second ∧
      t.loc = timeNow.loc ∧
      t.Valid ∧
      (t.hasMonotonic = true → timeNow.hasMonotonic = true ∧ t.ext = timeNow.ext + Second) :=
  ⟨by decide, by decide, by decide,
    EveryScheduler.Next_eq_add ⟨Second⟩ timeNow (by decide) (by decide) (by decide)⟩

/-- C2, as stated, fails: starting one second before the largest second that
`time.Time` holds, three successive calls of `Next` with an interval of one
second return the anchor plus one second, not plus three. -/
theorem EveryScheduler.iterNext_saturates :
    timeNearEnd.Valid ∧ IsInt64 Second ∧
    iterNext 3 ⟨Second⟩ timeNearEnd = .ok (timeAtEnd, ⟨Second⟩) ∧
    timeAtEnd.instant = timeNearEnd.instant + 1 * Second ∧
    timeAtEnd.instant ≠ timeNearEnd.instant + 3 * Second :=
  ⟨by decide, by decide,
    congrArg (fun t : Time => Except.ok (t, (⟨Second⟩ : EveryScheduler)))
      (by decide : ((timeNearEnd.Add Second).Add Second).Add Second = timeAtEnd),
    by decide, by decide⟩

/-- C2, amended: for every `EveryScheduler` with interval `d`, every anchor
`t0` and every natural number `n` such that the instant `t0 + n*d` is one that
`time.Time` can hold, `n` successive calls of `Next`, each fed the result of
the one before, starting from `t0`, return exactly the instant `t0 + n*d`.
(`hd` and `hv` say that the operands are values of their Go types.) -/
theorem EveryScheduler.iterNext_no_drift (s : EveryScheduler) (t0 : Time) (n : Nat)
    (hd : IsInt64 s.Interval) (hv : t0.Valid)
    (hr : Representable (t0.instant + (n : Int) * s.Interval)) :
    ∃ t : Time, iterNext n s t0 = .ok (t, s) ∧
      t.instant = t0.instant + (n : Int) * s.Interval ∧
      t.loc = t0.loc ∧
      t.Valid := by
  obtain ⟨a1, a2, a3⟩ := Time.iterate_Add_spec n s.Interval hd t0 hv hr
  exact ⟨_, iterNext_iterate n s t0, a2, a3, a1⟩

theorem EveryScheduler.iterNext_no_drift_witness :
    IsInt64 Second ∧ timeNow.Valid ∧
    Representable (timeNow.instant + ((3 : Nat) : Int) * Second) ∧
    ∃ t : Time, iterNext 3 ⟨Second⟩ timeNow = .ok (t, ⟨Second⟩) ∧
      t.instant = timeNow.instant + ((3 : Nat) : Int) * Second ∧
      t.loc = timeNow.loc ∧
      t.Valid :=
  ⟨by decide, by decide, by decide,
    EveryScheduler.iterNext_no_drift ⟨Second⟩ timeNow 3 (by decide) (by decide) (by decide)⟩

/-- C4: `Next` is stateless and deterministic.  A call on a scheduler `s` with
`prev` returns a time and leaves `s.Interval` (the whole receiver cell)
unchanged, a second call on the same scheduler with the same `prev` returns the
same time, and so does a call on any scheduler that has the same `Interval`. -/
theorem EveryScheduler.Next_stateless_deterministic (s : EveryScheduler) (prev : Time) :
    ∃ (t : Time) (s1 : EveryScheduler),
      EveryScheduler.Next (some s) prev = .ok (t, s1) ∧
      s1.Interval = s.Interval ∧
      EveryScheduler.Next (some s1) prev = .ok (t, s1) ∧
      ∀ s2 : EveryScheduler, s2.Interval = s.Interval →
        ∃ s3 : EveryScheduler, EveryScheduler.Next (some s2) prev = .ok (t, s3) ∧
          s3.Interval = s2.Interval := by
  refine ⟨prev.Add s.Interval, s, rfl, rfl, rfl, ?_⟩
  intro s2 h
  exact ⟨s2, by simp [EveryScheduler.Next, h], rfl⟩

/-- C5, as stated, fails: on the nil receiver, which is a value of type
`*EveryScheduler`, the call panics and returns no time. -/
theorem EveryScheduler.Next_nil_receiver_panics :
    EveryScheduler.Next none timeZero = .error .nilDereference ∧
    ¬ ∃ r : Time × EveryScheduler, EveryScheduler.Next none timeZero = .ok r := by
  constructor
  · rfl
  · rintro ⟨r, h⟩
    simp [EveryScheduler.Next] at h

/-- C5, amended: for every non-nil receiver of type `*EveryScheduler` and every
time `prev`, the call returns a time value and does not panic. -/
theorem EveryScheduler.Next_total (p : Option EveryScheduler) (prev : Time) (h : p ≠ none) :
    ∃ (t : Time) (v : EveryScheduler), EveryScheduler.Next p prev = .ok (t, v) := by
  cases p with
  | none => exact absurd rfl h
  | some v => exact ⟨prev.Add v.Interval, v, rfl⟩

theorem EveryScheduler.Next_total_witness :
    (some (⟨Second⟩ : EveryScheduler)) ≠ none ∧
    ∃ (t : Time) (v : EveryScheduler),
      EveryScheduler.Next (some ⟨Second⟩) timeNow = .ok (t, v) :=
  ⟨by simp, EveryScheduler.Next_total (some ⟨Second⟩) timeNow (by simp)⟩

/-- C8, as stated, fails: at the largest second that `time.Time` holds,
`Next` with the positive interval of two seconds returns `prev` itself, which
is not after `prev` and is equal to it although the interval is not zero. -/
theorem EveryScheduler.Next_order_saturates :
    timeAtEnd.Valid ∧ IsInt64 2000000000 ∧ (0 : Int) < 2000000000 ∧
    ∃ t : Time, EveryScheduler.Next (some ⟨2000000000⟩) timeAtEnd = .ok (t, ⟨2000000000⟩) ∧
      t = timeAtEnd ∧ t.After timeAtEnd = false ∧ t.Equal timeAtEnd = true :=
  ⟨by decide, by decide, by decide, timeAtEnd,
    congrArg (fun t : Time => Except.ok (t, (⟨2000000000⟩ : EveryScheduler)))
      (by decide : timeAtEnd.Add 2000000000 = timeAtEnd),
    rfl, by decide, by decide⟩

/-- C8, amended: for every `EveryScheduler` and every time `prev` such that
the instant `prev + Interval` is one that `time.Time` can hold, `Next(prev)` is
after `prev` exactly when `Interval > 0`, equal to `prev` exactly when
`Interval = 0`, and before `prev` exactly when `Interval < 0`; with a positive
interval each scheduled fire time that `time.Time` can hold is strictly after
the one before it.  (`hd` and `hv` say that the operands are values of their
Go types.) -/
theorem EveryScheduler.Next_order (s : EveryScheduler) (prev : Time)
    (hd : IsInt64 s.Interval) (hv : prev.Valid)
    (hr : Representable (prev.instant + s.Interval)) :
    ∃ t : Time, EveryScheduler.Next (some s) prev = .ok (t, s) ∧
      (t.After prev = true ↔ 0 < s.Interval) ∧
      (t.Equal prev = true ↔ s.Interval = 0) ∧
      (t = prev ↔ s.Interval = 0) ∧
      (t.Before prev = true ↔ s.Interval < 0) ∧
      (0 < s.Interval → ∀ n : Nat,
        Representable (prev.instant + ((n + 1 : Nat) : Int) * s.Interval) →
        ∃ a b : Time,
          iterNext n s prev = .ok (a, s) ∧ iterNext (n + 1) s prev = .ok (b, s) ∧
          b.After a = true ∧ a.Before b = true) := by
  obtain ⟨c1, c2, c3, _⟩ := Time.compare_Add prev s.Interval hv hd hr
  refine ⟨prev.Add s.Interval, rfl, c1, c2, ?_, c3, ?_⟩
  · constructor
    · intro h
      apply c2.1
      rw [h]
      have e := Time.compare_Add prev 0 hv (by decide)
        (by simpa using Time.instant_representable prev hv)
      rw [Time.Add_zero prev hv] at e
      exact e.2.1.2 rfl
    · intro h
      rw [h]
      exact Time.Add_zero prev hv
  · intro hpos n hn
    obtain ⟨k1, k2⟩ := Time.iterate_Add_increasing s.Interval hd hpos prev hv n hn
    exact ⟨_, _, iterNext_iterate n s prev, iterNext_iterate (n + 1) s prev, k1, k2⟩

theorem EveryScheduler.Next_order_witness :
    IsInt64 Second ∧ timeNow.Valid ∧ Representable (timeNow.instant + Second) ∧
    ∃ t : Time, EveryScheduler.Next (some ⟨Second⟩) timeNow = .ok (t, ⟨Second⟩) ∧
      t.After timeNow = true ∧ t.Equal timeNow = false ∧ t.Before timeNow = false := by
  obtain ⟨t, h1, h2, h3, _, h5, _⟩ :=
    EveryScheduler.Next_order ⟨Second⟩ timeNow (by decide) (by decide) (by decide)
  refine ⟨by decide, by decide, by decide, t, h1, h2.2 (by decide), ?_, ?_⟩
  · cases h : t.Equal timeNow
    · rfl
    · exact absurd (h3.1 h) (by decide)
  · cases h : t.Before timeNow
    · rfl
    · exact absurd (h5.1 h) (by decide)

/-! ## Timer life cycle -/

/-- C6: the re-arm step of a timer whose fire is in flight.  When the callback
has completed and `cancelled` is false, `scheduledAt` becomes
`policy.Next(scheduledAt)` (for `EveryScheduler` with interval `d`: the
previous `scheduledAt` plus `d`) and the same timer is registered again at that
time.  When `cancelled` is true at the check, nothing is registered, and the
timer stays cancelled, never fires and keeps its `scheduledAt` under every
later sequence of steps. -/
theorem Timer.rearm_step (t : Timer) (hf : t.firing = true) :
    (t.cancelled = false →
      t.rearm.scheduledAt = t.policy t.scheduledAt ∧
      t.rearm.registration = some (t.policy t.scheduledAt) ∧
      t.rearm.policy = t.policy ∧
      t.rearm.invocations = t.invocations ∧
      t.rearm.cancelled = false ∧
      t.rearm.firing = false ∧
      ∀ s : EveryScheduler, t.policy = s.policy →
        EveryScheduler.Next (some s) t.scheduledAt = .ok (t.rearm.scheduledAt, s) ∧
        t.rearm.scheduledAt = t.scheduledAt.Add s.Interval ∧
        t.rearm.registration = some (t.scheduledAt.Add s.Interval)) ∧
    (t.cancelled = true →
      t.rearm.scheduledAt = t.scheduledAt ∧
      t.rearm.registration = t.registration ∧
      ∀ evs : List TimerEvent,
        (t.rearm.run evs).cancelled = true ∧
        (t.rearm.run evs).firing = false ∧
        (t.rearm.run evs).scheduledAt = t.scheduledAt ∧
        (t.rearm.run evs).invocations = t.invocations ∧
        ((t.rearm.run evs).registration = none ∨
          (t.rearm.run evs).registration = t.registration)) := by
  constructor
  · intro hc
    refine ⟨by simp [Timer.rearm, hf, hc], by simp [Timer.rearm, hf, hc],
      by simp [Timer.rearm, hf, hc], by simp [Timer.rearm, hf, hc],
      by simp [Timer.rearm, hf, hc], by simp [Timer.rearm, hf, hc], ?_⟩
    intro s hs
    have h1 : t.rearm.scheduledAt = t.scheduledAt.Add s.Interval := by
      simp [Timer.rearm, hf, hc, hs, EveryScheduler.policy_eq]
    have h2 : t.rearm.registration = some (t.scheduledAt.Add s.Interval) := by
      simp [Timer.rearm, hf, hc, hs, EveryScheduler.policy_eq]
    refine ⟨?_, h1, h2⟩
    rw [h1]
    rfl
  · intro hc
    have e : t.rearm = { t with firing := false } := by simp [Timer.rearm, hf, hc]
    refine ⟨by rw [e], by rw [e], ?_⟩
    intro evs
    have h := Timer.run_terminal evs t.rearm (by rw [e]; exact hc) (by rw [e])
    rw [e] at h ⊢
    exact h

theorem Timer.rearm_step_witness :
    (timerInFlight.firing = true ∧ timerInFlight.cancelled = false ∧
      timerInFlight.rearm.scheduledAt = timerInFlight.scheduledAt.Add Second ∧
      timerInFlight.rearm.registration = some (timerInFlight.scheduledAt.Add Second)) ∧
    (timerInFlightCancelled.firing = true ∧ timerInFlightCancelled.cancelled = true ∧
      timerInFlightCancelled.rearm.scheduledAt = timerInFlightCancelled.scheduledAt ∧
      timerInFlightCancelled.rearm.registration = timerInFlightCancelled.registration ∧
      (timerInFlightCancelled.rearm.run
          [.dispatch ⟨false, 0, 0, 9, 0⟩, .callbackDone, .cancel]).invocations =
        timerInFlightCancelled.invocations) :=
  ⟨⟨rfl, rfl,
     ((((Timer.rearm_step timerInFlight rfl).1 rfl).2.2.2.2.2.2) ⟨Second⟩ rfl).2.1,
     ((((Timer.rearm_step timerInFlight rfl).1 rfl).2.2.2.2.2.2) ⟨Second⟩ rfl).2.2⟩,
   ⟨rfl, rfl,
     ((Timer.rearm_step timerInFlightCancelled rfl).2 rfl).1,
     ((Timer.rearm_step timerInFlightCancelled rfl).2 rfl).2.1,
     (((Timer.rearm_step timerInFlightCancelled rfl).2 rfl).2.2
        [.dispatch ⟨false, 0, 0, 9, 0⟩, .callbackDone, .cancel]).2.2.2.1⟩⟩

/-- C7: `cancel` is idempotent.  On a timer that is already cancelled and has
no fire in flight a further call returns false and leaves the timer (flag,
`scheduledAt`, registration and all) unchanged, however often it is repeated;
and on any timer `n + 1` calls leave the same state as one call, every call
after the first returning false. -/
theorem Timer.cancel_idempotent (t : Timer) (hc : t.cancelled = true) (hf : t.firing = false) :
    t.cancel = (false, t) ∧
    t.cancel.2.cancelled = true ∧
    t.cancel.2.firing = false ∧
    t.cancel.2.scheduledAt = t.scheduledAt ∧
    t.cancel.2.registration = t.registration ∧
    (∀ n : Nat, t.cancelN n = t) ∧
    ∀ (u : Timer) (n : Nat),
      u.cancelN (n + 1) = u.cancel.2 ∧ u.cancel.2.cancel = (false, u.cancel.2) := by
  have e : t.cancel = (false, t) := Timer.cancel_of_cancelled t hc
  refine ⟨e, by rw [e]; exact hc, by rw [e]; exact hf, by rw [e], by rw [e],
    fun n => Timer.cancelN_of_cancelled n t hc, ?_⟩
  intro u n
  constructor
  · exact Timer.cancelN_of_cancelled n u.cancel.2 (Timer.cancel_cancelled u)
  · exact Timer.cancel_of_cancelled u.cancel.2 (Timer.cancel_cancelled u)

theorem Timer.cancel_idempotent_witness :
    timerCancelled.cancelled = true ∧ timerCancelled.firing = false ∧
    timerCancelled.cancel = (false, timerCancelled) ∧
    timerCancelled.cancelN 5 = timerCancelled :=
  ⟨rfl, rfl, (Timer.cancel_idempotent timerCancelled rfl rfl).1,
    (Timer.cancel_idempotent timerCancelled rfl rfl).2.2.2.2.2.1 5⟩

/-! ## The HTTP status helper -/

theorem GetHttpCode_of_head_error (head : String → HeadResult) (u : String)
    (err : Option GoError) (h : head u = (none, err)) :
    GetHttpCode head u = .error .nilDereference := by
  simp [GetHttpCode, h]

/-- C9 fails on the code: when the HEAD request fails, so that `http.Head`
returns a nil response and an error, `GetHttpCode` panics on the nil response
and returns nothing, in particular not the error. -/
theorem GetHttpCode_head_failure_panics :
    headUnsupportedScheme "" = (none, some ⟨"unsupported protocol scheme"⟩) ∧
    GetHttpCode headUnsupportedScheme "" = .error .nilDereference ∧
    ¬ ∃ c : Int, GetHttpCode headUnsupportedScheme "" =
        .ok (c, some ⟨"unsupported protocol scheme"⟩) := by
  have h : GetHttpCode headUnsupportedScheme "" = .error .nilDereference :=
    GetHttpCode_of_head_error headUnsupportedScheme "" _ rfl
  refine ⟨rfl, h, ?_⟩
  rintro ⟨c, hc⟩
  rw [h] at hc
  cases hc

/-- C10: when the HEAD request succeeds with response `r`, so that `http.Head`
returns `r` and a nil error, `GetHttpCode` returns exactly
`(r.StatusCode, nil)`. -/
theorem GetHttpCode_of_head_ok (head : String → HeadResult) (u : String) (r : Response)
    (h : head u = (some r, none)) :
    GetHttpCode head u = .ok (r.StatusCode, none) := by
  simp [GetHttpCode, h]

theorem GetHttpCode_of_head_ok_witness :
    headOK "http://example.com" = (some ⟨200, ⟨none⟩⟩, none) ∧
    GetHttpCode headOK "http://example.com" = .ok (200, none) :=
  ⟨rfl, GetHttpCode_of_head_ok headOK "http://example.com" ⟨200, ⟨none⟩⟩ rfl⟩

end Timingwheel
